import Mathlib

/-!
Verification of the dialogue-timeline audio synthesis engine of the
DubbingBot repository: the segment timeline chunker (VideoChunker.ts),
the PCM sample codec (useVideoProcessor.ts), the translation batch
optimizer (TranslationOptimizer.ts) and the timeline mixer / peak
analyzer (AudioMixer.ts), shallowly embedded in Lean.

Times and PCM samples are modelled as rationals; mixer amplitudes are
modelled as real numbers because the gain staging divides by a square
root of the clip count.
-/

namespace Dub

/-- DialogueSegment from types.ts: a time-bounded utterance of one speaker. -/
structure DialogueSegment where
  startTime : ℚ
  endTime : ℚ
  transcription : String
  speakerId : String
deriving DecidableEq

instance : Inhabited DialogueSegment := ⟨⟨0, 0, "", ""⟩⟩

/-- TranslatedSegment from types.ts. -/
structure TranslatedSegment where
  speakerId : String
  text : String
  startTime : ℚ
  endTime : ℚ
deriving DecidableEq

/-- The chunkType union of VideoChunker.ts. -/
inductive ChunkType where
  | singleSpeaker
  | multiSpeaker
  | overlap
deriving DecidableEq

/-- VideoChunk from VideoChunker.ts. -/
structure VideoChunk where
  startTime : ℚ
  endTime : ℚ
  segments : List DialogueSegment
  chunkType : ChunkType
  speakers : List String
deriving DecidableEq

instance : Inhabited VideoChunk := ⟨⟨0, 0, [], ChunkType.singleSpeaker, []⟩⟩

/-! ### Segment timeline chunker (VideoChunker.ts, chunkVideo / createChunk) -/

/-- Comparator of the sort call in chunkVideo:
sorted ascending by startTime. -/
def segLE (a b : DialogueSegment) : Prop := a.startTime ≤ b.startTime

instance : DecidableRel segLE := fun a b =>
  inferInstanceAs (Decidable (a.startTime ≤ b.startTime))

instance : IsTotal DialogueSegment segLE := ⟨fun a b => le_total a.startTime b.startTime⟩

instance : IsTrans DialogueSegment segLE := ⟨fun _ _ _ h1 h2 => le_trans h1 h2⟩

/-- The sort in chunkVideo. JavaScript Array.prototype.sort is stable and
sorts consistently with the comparator; insertion sort by segLE realizes
exactly that (ties keep input order). -/
def sortByStart (l : List DialogueSegment) : List DialogueSegment :=
  List.insertionSort segLE l

/-- JavaScript spread of a Set built from a list: first occurrences, in order. -/
def uniqueFirst (l : List String) : List String :=
  l.foldl (fun acc s => if s ∈ acc then acc else acc ++ [s]) []

/-- JavaScript Math.max over a spread list; createChunk only applies it to
nonempty lists, so the empty default is irrelevant there. -/
def listMaxQ : List ℚ → ℚ
  | [] => 0
  | x :: xs => xs.foldl max x

/-- createChunk of VideoChunker.ts. -/
def createChunk (segs : List DialogueSegment) (startTime : ℚ) (hasOverlap : Bool) :
    VideoChunk :=
  let speakers := uniqueFirst (segs.map (fun s => s.speakerId))
  let endTime := listMaxQ (segs.map (fun s => s.endTime))
  let ct := if hasOverlap then ChunkType.overlap
            else if 1 < speakers.length then ChunkType.multiSpeaker
            else ChunkType.singleSpeaker
  ⟨startTime, endTime, segs, ct, speakers⟩

/-- The mutable loop state of chunkVideo: accumulated chunks, the open chunk,
its start time, its speaker set (written but never read back by the source),
and the overlap flag. -/
structure ChunkState where
  chunks : List VideoChunk
  currentChunk : List DialogueSegment
  currentStartTime : ℚ
  currentSpeakers : List String
  hasOverlap : Bool

/-- Set-insert used for currentSpeakers. -/
def addSpeaker (l : List String) (s : String) : List String :=
  if s ∈ l then l else l ++ [s]

/-- One iteration of the chunkVideo for-loop. prev is sorted[i-1]
(none on the first iteration, where the overlap and gap tests are false). -/
def chunkStep (gapThreshold : ℚ) (prev : Option DialogueSegment)
    (seg : DialogueSegment) (st : ChunkState) : ChunkState :=
  let isOverlap : Bool := match prev with
    | none => false
    | some p => decide (seg.startTime < p.endTime)
  let hasGap : Bool := match prev with
    | none => false
    | some p => decide (gapThreshold < seg.startTime - p.endTime)
  let speakerChanged : Bool :=
    decide (st.currentChunk ≠ []) &&
      decide (seg.speakerId ≠ (st.currentChunk.getLastD default).speakerId)
  let shouldNewChunk : Bool :=
    (speakerChanged && !isOverlap) || hasGap || (isOverlap && !st.hasOverlap)
  if shouldNewChunk && decide (st.currentChunk ≠ []) then
    ⟨st.chunks ++ [createChunk st.currentChunk st.currentStartTime st.hasOverlap],
      [seg], seg.startTime, [seg.speakerId], false⟩
  else
    ⟨st.chunks, st.currentChunk ++ [seg], st.currentStartTime,
      addSpeaker st.currentSpeakers seg.speakerId,
      st.hasOverlap || isOverlap⟩

/-- The chunkVideo for-loop over the sorted segments. -/
def chunkLoop (gapThreshold : ℚ) :
    Option DialogueSegment → List DialogueSegment → ChunkState → ChunkState
  | _, [], st => st
  | prev, seg :: rest, st =>
      chunkLoop gapThreshold (some seg) rest (chunkStep gapThreshold prev seg st)

/-- The trailing flush of chunkVideo: the final open chunk is pushed when
nonempty. -/
def finalFlush (st : ChunkState) : List VideoChunk :=
  if st.currentChunk ≠ [] then
    st.chunks ++ [createChunk st.currentChunk st.currentStartTime st.hasOverlap]
  else st.chunks

/-- chunkVideo of VideoChunker.ts. -/
def chunkVideo (segments : List DialogueSegment) (gapThreshold : ℚ) : List VideoChunk :=
  match segments with
  | [] => []
  | _ :: _ =>
      let sorted := sortByStart segments
      finalFlush (chunkLoop gapThreshold none sorted
        ⟨[], [], sorted.headI.startTime, [], false⟩)

/-! ### PCM sample codec (useVideoProcessor.ts, audioBufferToWavBlob /
manualDecodeAudioData)

audioBufferToWavBlob converts each floating-point sample by
clamping to [-1,1], scaling by 0x7FFF and assigning into an Int16Array;
that assignment truncates toward zero (there is no rounding in the source).
The clamp keeps the scaled value inside the signed 16-bit range, so the
wrap-around of the int16 conversion is the identity and is not modelled.
The samples are then written little-endian; manualDecodeAudioData reads
them back with getInt16 (little-endian, two's complement) and divides
by 32768. -/

/-- Clamp of audioBufferToWavBlob: Math.max(-1, Math.min(1, x)). -/
def clamp1 (x : ℚ) : ℚ := max (-1) (min 1 x)

/-- Truncation toward zero, the conversion applied by an Int16Array store. -/
def truncQ (x : ℚ) : ℤ := if 0 ≤ x then ⌊x⌋ else ⌈x⌉

/-- The per-sample 16-bit encoding of audioBufferToWavBlob. -/
def encodeSample (x : ℚ) : ℤ := truncQ (clamp1 x * 32767)

/-- setInt16 little-endian: the two bytes of the two's-complement
representation, low byte first. -/
def int16ToBytesLE (n : ℤ) : List ℕ :=
  [((n % 65536).toNat) % 256, ((n % 65536).toNat) / 256]

/-- getInt16 little-endian: recombine two bytes and reinterpret the
unsigned 16-bit value as signed. -/
def bytesToInt16 (lo hi : ℕ) : ℤ :=
  if (lo + 256 * hi : ℤ) < 32768 then lo + 256 * hi else lo + 256 * hi - 65536

/-- The sample section written by audioBufferToWavBlob (mono). -/
def encodePcmBytes (samples : List ℚ) : List ℕ :=
  (samples.map (fun x => int16ToBytesLE (encodeSample x))).flatten

/-- manualDecodeAudioData for one channel: frameCount = byteLength / 2,
each frame is getInt16 at its byte offset divided by 32768. A trailing
odd byte is ignored by the floor division, and an empty input yields an
empty buffer. -/
def decodePcmBytes : List ℕ → List ℚ
  | lo :: hi :: rest => ((bytesToInt16 lo hi : ℚ) / 32768) :: decodePcmBytes rest
  | _ => []

/-! ### Translation batch optimizer (TranslationOptimizer.ts,
groupSegmentsBySpeaker / batchOptimizeTranslations) -/

/-- One entry of the grouping produced by groupSegmentsBySpeaker. -/
structure SpeakerGroup where
  speakerId : String
  startTime : ℚ
  segments : List DialogueSegment

/-- Close the open group, as the source does when the speaker changes
and at the end of the loop; the start time is the first grouped
segment's start time. -/
def closeGroup (groups : List SpeakerGroup) (currentSpeakerId : String) :
    Option (List DialogueSegment) → List SpeakerGroup
  | some g => groups ++ [⟨currentSpeakerId, g.headI.startTime, g⟩]
  | none => groups

/-- The groupSegmentsBySpeaker loop. currentGroup starts as null and
currentSpeakerId as the empty string; a segment whose speakerId equals
currentSpeakerId is pushed through optional chaining, which is a no-op
while currentGroup is still null. -/
def groupLoop (groups : List SpeakerGroup) (currentGroup : Option (List DialogueSegment))
    (currentSpeakerId : String) : List DialogueSegment → List SpeakerGroup
  | [] => closeGroup groups currentSpeakerId currentGroup
  | seg :: rest =>
      if seg.speakerId ≠ currentSpeakerId then
        groupLoop (closeGroup groups currentSpeakerId currentGroup)
          (some [seg]) seg.speakerId rest
      else
        groupLoop groups (currentGroup.map (fun g => g ++ [seg])) currentSpeakerId rest

/-- groupSegmentsBySpeaker of TranslationOptimizer.ts. -/
def groupSegmentsBySpeaker (segments : List DialogueSegment) : List SpeakerGroup :=
  groupLoop [] none "" segments

/-- batchOptimizeTranslations of TranslationOptimizer.ts. The external
text-generation call (optimizeTranslation together with the group's
context window and speaker-profile description, all functions of the
group and the full segment list) is abstracted as the opaque function tr
of the group and the segment; each output carries the segment's own
speakerId and unchanged startTime / endTime. -/
def batchOptimizeTranslations (tr : SpeakerGroup → DialogueSegment → String)
    (segments : List DialogueSegment) : List TranslatedSegment :=
  ((groupSegmentsBySpeaker segments).map (fun g =>
    g.segments.map (fun seg => (⟨seg.speakerId, tr g seg, seg.startTime, seg.endTime⟩ :
      TranslatedSegment)))).flatten

/-! ### Timeline mixer (AudioMixer.ts, mixAudioBuffers and helpers)

Amplitudes are real numbers; the target sample rate is the fixed 24000
of the AudioMixer class. Start times stay rational so the floor to a
sample index is computable. -/

/-- An entry of the buffers argument of mixAudioBuffers: the clip's channel
data, its start time in seconds, its speaker and its volume (the source
defaults a missing volume to 1; callers here always pass it). -/
structure AudioClip where
  samples : List ℝ
  startTime : ℚ
  speakerId : String
  volume : ℝ

/-- startSample = Math.floor(clip.startTime * 24000). -/
def startSampleOf (c : AudioClip) : ℤ := ⌊c.startTime * 24000⌋

/-- Output buffer length: Math.ceil(totalDuration * 24000). -/
def bufLen (totalDuration : ℚ) : ℕ := (⌈totalDuration * 24000⌉).toNat

/-- calculateNormalizedGain of AudioMixer.ts: 1 / Math.sqrt(sourceCount)
times the user volume. -/
noncomputable def calculateNormalizedGain (sourceCount : ℕ) (userVolume : ℝ) : ℝ :=
  1 / Real.sqrt sourceCount * userVolume

/-- The amount the accumulation loop adds into output index j for clip c
when n clips are being mixed. The source iterates i over the clip samples
writing to startSample + i, skipping writes at or beyond the buffer end;
a write to a negative index is a silent no-op on a typed array. Hence
index j receives the clip sample at j - startSample exactly when that
offset lies inside the clip, and nothing otherwise. -/
noncomputable def clipContrib (c : AudioClip) (n : ℕ) (j : ℕ) : ℝ :=
  let i : ℤ := (j : ℤ) - startSampleOf c
  if 0 ≤ i ∧ i < (c.samples.length : ℤ) then
    c.samples.getD i.toNat 0 * calculateNormalizedGain n c.volume
  else 0

/-- The accumulation loop of mixAudioBuffers with the gain divisor n kept
explicit; the source always passes the total clip count buffers.length. -/
noncomputable def accumulateWithCount (clips : List AudioClip) (n : ℕ) (len : ℕ) :
    List ℝ :=
  (List.range len).map (fun j => (clips.map (fun c => clipContrib c n j)).sum)

/-- Steps 1 and 2 of mixAudioBuffers: a silent buffer of len samples with
every clip added in at its start offset under gain 1/sqrt(N) times volume,
N being the total number of clips in the call. -/
noncomputable def accumulateClips (clips : List AudioClip) (len : ℕ) : List ℝ :=
  accumulateWithCount clips clips.length len

/-- The per-sample body of applySoftLimiter (threshold 0.8, knee 0.1,
ratio 12). -/
noncomputable def limitSample (sample : ℝ) : ℝ :=
  let absSample := |sample|
  if absSample > 8/10 - (1/10) / 2 then
    let gain :=
      if absSample < 8/10 then
        let kneeAmount := (absSample - (8/10 - (1/10) / 2)) / (1/10)
        let hardKneeGain := 1 + (12 - 1) * kneeAmount
        1 + (hardKneeGain - 1) * kneeAmount
      else
        (8/10 + (absSample - 8/10) / 12) / absSample
    sample * gain
  else sample

/-- applySoftLimiter of AudioMixer.ts, applied to the whole buffer. -/
noncomputable def applySoftLimiter (audioData : List ℝ) : List ℝ :=
  audioData.map limitSample

/-- The timelineChannels list built during mixing: for each clip its
start sample and end sample (start + length). -/
def timelineChannels (clips : List AudioClip) : List (ℤ × ℤ) :=
  clips.map (fun c => (startSampleOf c, startSampleOf c + c.samples.length))

/-- Number of channels whose range covers sample index j. -/
def overlapCount (chans : List (ℤ × ℤ)) (j : ℕ) : ℕ :=
  (chans.filter (fun ch => decide (ch.1 ≤ (j : ℤ) ∧ (j : ℤ) < ch.2))).length

/-- The per-sample compression of compressOverlapRegions (threshold 0.5,
ratio 4), applied when more than one channel covers the index. -/
noncomputable def compressSample (sample : ℝ) : ℝ :=
  if |sample| > 1/2 then sample / |sample| * (1/2 + (|sample| - 1/2) / 4) else sample

/-- compressOverlapRegions of AudioMixer.ts. The attack and release sample
counts are computed by the source but never used. -/
noncomputable def compressOverlapRegions (audioData : List ℝ) (chans : List (ℤ × ℤ)) :
    List ℝ :=
  (List.range audioData.length).map (fun j =>
    if 1 < overlapCount chans j then compressSample (audioData.getD j 0)
    else audioData.getD j 0)

/-- mixAudioBuffers of AudioMixer.ts: allocate ceil(duration * 24000)
silent samples, accumulate every clip, soft-limit the whole buffer, then
compress the overlap regions. -/
noncomputable def mixAudioBuffers (clips : List AudioClip) (totalDuration : ℚ) :
    List ℝ :=
  compressOverlapRegions
    (applySoftLimiter (accumulateClips clips (bufLen totalDuration)))
    (timelineChannels clips)

/-! ### Peak / RMS analyzer (AudioMixer.ts, analyzeAudioPeaks) -/

/-- The per-speaker record of analyzeAudioPeaks. -/
structure PeakStats where
  peak : ℝ
  rms : ℝ
  recommendedGain : ℝ

/-- The per-clip body of analyzeAudioPeaks: peak is the maximal absolute
sample, rms the root mean square, and the recommended gain is
0.95 / max(peak, rms) capped at 1.5. When max(peak, rms) is zero the
JavaScript division yields positive infinity and Math.min returns the
1.5 cap, which the zero case below reproduces. -/
noncomputable def analyzeClip (data : List ℝ) : PeakStats :=
  let peak := data.foldl (fun p x => max p |x|) 0
  let sum := data.foldl (fun s x => s + |x| * |x|) 0
  let rms := Real.sqrt (sum / (data.length : ℝ))
  let m := max peak rms
  let recommendedGain := if m = 0 then (3/2 : ℝ) else min (19/20 / m) (3/2)
  ⟨peak, rms, recommendedGain⟩

/-- JavaScript Map.set: replace the value at an existing key in place,
otherwise append. -/
def mapSet (m : List (String × PeakStats)) (k : String) (v : PeakStats) :
    List (String × PeakStats) :=
  match m with
  | [] => [(k, v)]
  | (k0, v0) :: rest => if k0 = k then (k0, v) :: rest else (k0, v0) :: mapSet rest k v

/-- analyzeAudioPeaks of AudioMixer.ts over (speakerId, channel data)
pairs. -/
noncomputable def analyzeAudioPeaks (clips : List (String × List ℝ)) :
    List (String × PeakStats) :=
  clips.foldl (fun m c => mapSet m c.1 (analyzeClip c.2)) []

/-! ### Chunker lemmas -/

/-- All segments held by a chunk state, in order: the closed chunks'
segments followed by the open chunk. -/
def joinAll (st : ChunkState) : List DialogueSegment :=
  (st.chunks.map VideoChunk.segments).flatten ++ st.currentChunk

/-- Consecutive segments in sorted order do not overlap in time. -/
def segSeq (a b : DialogueSegment) : Prop := a.endTime ≤ b.startTime

/-- One chunk's time range ends before the next begins. -/
def chunkSeq (c d : VideoChunk) : Prop := c.endTime ≤ d.startTime

/-- Two chunks have non-intersecting half-open time ranges. -/
def chunkDisjoint (c d : VideoChunk) : Prop :=
  c.endTime ≤ d.startTime ∨ d.endTime ≤ c.startTime

/-- All segments held by a group list, in order. -/
def groupsSegs (groups : List SpeakerGroup) : List DialogueSegment :=
  (groups.map SpeakerGroup.segments).flatten

theorem createChunk_segments (segs : List DialogueSegment) (t : ℚ) (o : Bool) :
    (createChunk segs t o).segments = segs := rfl

theorem joinAll_chunkStep (g : ℚ) (prev : Option DialogueSegment)
    (seg : DialogueSegment) (st : ChunkState) :
    joinAll (chunkStep g prev seg st) = joinAll st ++ [seg] := by
  simp only [chunkStep]
  split <;> simp [joinAll, createChunk_segments]

theorem chunkLoop_joinAll (g : ℚ) (l : List DialogueSegment) :
    ∀ (prev : Option DialogueSegment) (st : ChunkState),
      joinAll (chunkLoop g prev l st) = joinAll st ++ l := by
  induction l with
  | nil => intro prev st; simp [chunkLoop]
  | cons seg rest ih =>
      intro prev st
      rw [chunkLoop, ih, joinAll_chunkStep]
      simp

theorem finalFlush_join (st : ChunkState) :
    ((finalFlush st).map VideoChunk.segments).flatten = joinAll st := by
  unfold finalFlush
  split
  · simp [joinAll, createChunk_segments]
  · next h =>
      simp only [ne_eq, not_not] at h
      simp [joinAll, h]

theorem chunkVideo_eq (s0 : DialogueSegment) (rest : List DialogueSegment) (g : ℚ) :
    chunkVideo (s0 :: rest) g =
      finalFlush (chunkLoop g none (sortByStart (s0 :: rest))
        ⟨[], [], (sortByStart (s0 :: rest)).headI.startTime, [], false⟩) := rfl

theorem createChunk_not_overlap (segs : List DialogueSegment) (t : ℚ) :
    (createChunk segs t false).chunkType ≠ ChunkType.overlap := by
  simp only [createChunk, Bool.false_eq_true, if_false]
  split <;> simp

theorem chunkStep_inv (g : ℚ) (prev : Option DialogueSegment) (seg : DialogueSegment)
    (st : ChunkState) (h1 : st.hasOverlap = false)
    (h2 : prev ≠ none → st.currentChunk ≠ [])
    (h3 : ∀ c ∈ st.chunks, c.chunkType ≠ ChunkType.overlap) :
    (chunkStep g prev seg st).hasOverlap = false ∧
      (chunkStep g prev seg st).currentChunk ≠ [] ∧
      ∀ c ∈ (chunkStep g prev seg st).chunks, c.chunkType ≠ ChunkType.overlap := by
  cases prev with
  | none =>
      simp only [chunkStep, h1]
      split
      · refine ⟨rfl, by simp, ?_⟩
        intro c hc
        rcases List.mem_append.mp hc with hc | hc
        · exact h3 c hc
        · rcases List.mem_singleton.mp hc with rfl
          rw [← h1]
          exact h1 ▸ createChunk_not_overlap st.currentChunk st.currentStartTime
      · exact ⟨by simp [h1], by simp, h3⟩
  | some p =>
      have hne : st.currentChunk ≠ [] := h2 (by simp)
      simp only [chunkStep, h1]
      split
      · refine ⟨rfl, by simp, ?_⟩
        intro c hc
        rcases List.mem_append.mp hc with hc | hc
        · exact h3 c hc
        · rcases List.mem_singleton.mp hc with rfl
          exact h1 ▸ createChunk_not_overlap st.currentChunk st.currentStartTime
      · next hcond =>
          refine ⟨?_, by simp, h3⟩
          simp only [h1, Bool.false_or]
          by_cases hov : seg.startTime < p.endTime
          · exact absurd (by simp [hne, hov]) hcond
          · simp [hov]

theorem chunkLoop_inv_overlap (g : ℚ) (l : List DialogueSegment) :
    ∀ (prev : Option DialogueSegment) (st : ChunkState),
      st.hasOverlap = false →
      (prev ≠ none → st.currentChunk ≠ []) →
      (∀ c ∈ st.chunks, c.chunkType ≠ ChunkType.overlap) →
      ∀ c ∈ finalFlush (chunkLoop g prev l st), c.chunkType ≠ ChunkType.overlap := by
  induction l with
  | nil =>
      intro prev st h1 h2 h3
      simp only [chunkLoop]
      unfold finalFlush
      split
      · intro c hc
        rcases List.mem_append.mp hc with hc | hc
        · exact h3 c hc
        · rcases List.mem_singleton.mp hc with rfl
          exact h1 ▸ createChunk_not_overlap st.currentChunk st.currentStartTime
      · exact h3
  | cons seg rest ih =>
      intro prev st h1 h2 h3
      rw [chunkLoop]
      obtain ⟨k1, k2, k3⟩ := chunkStep_inv g prev seg st h1 h2 h3
      exact ih (some seg) _ k1 (fun _ => k2) k3

/-! ### Claim theorems for the chunker -/

/-- Claim C9: for every input segment list and gap threshold, concatenating
the segments of the chunks returned by chunkVideo, in chunk order, yields
exactly the input segments stably sorted by startTime (sortByStart, the
stable insertion sort by the comparator of the source): no segment is
lost, duplicated, or reordered relative to the sorted input; moreover that
sorted list is a permutation of the input and is sorted by startTime. -/
theorem chunkVideo_preserves_segments (segs : List DialogueSegment) (g : ℚ) :
    ((chunkVideo segs g).map VideoChunk.segments).flatten = sortByStart segs ∧
      (sortByStart segs).Perm segs ∧ (sortByStart segs).Sorted segLE := by
  refine ⟨?_, List.perm_insertionSort segLE segs, List.sorted_insertionSort segLE segs⟩
  cases segs with
  | nil => rfl
  | cons s0 rest =>
      rw [chunkVideo_eq, finalFlush_join, chunkLoop_joinAll]
      simp [joinAll]

/-- Claim C3: refuted example and its cause. On the segments A over [0,3]
and B over [2,4] (gap threshold 0.5) the source returns two
single-speaker chunks A 0-3 and B 2-4, not one overlap chunk over 0-4:
the first overlapping segment opens its new chunk with the overlap flag
reset to false, and the flag can never become true afterwards, so in fact
no chunk produced by chunkVideo is ever classified as an overlap chunk. -/
theorem chunkVideo_overlap_example :
    chunkVideo [⟨0, 3, "", "A"⟩, ⟨2, 4, "", "B"⟩] (1/2) =
      [⟨0, 3, [⟨0, 3, "", "A"⟩], ChunkType.singleSpeaker, ["A"]⟩,
       ⟨2, 4, [⟨2, 4, "", "B"⟩], ChunkType.singleSpeaker, ["B"]⟩] ∧
    ∀ (segs : List DialogueSegment) (g : ℚ),
      ∀ c ∈ chunkVideo segs g, c.chunkType ≠ ChunkType.overlap := by
  constructor
  · norm_num [chunkVideo, sortByStart, List.insertionSort, List.orderedInsert, segLE,
      chunkLoop, chunkStep, finalFlush, createChunk, uniqueFirst, listMaxQ, addSpeaker]
  · intro segs g c hc
    cases segs with
    | nil => simp [chunkVideo] at hc
    | cons s0 rest =>
        rw [chunkVideo_eq] at hc
        exact chunkLoop_inv_overlap g (sortByStart (s0 :: rest)) none
          ⟨[], [], (sortByStart (s0 :: rest)).headI.startTime, [], false⟩
          rfl (fun hn => absurd rfl hn) (by simp) c hc

/-- Witness for the universally quantified half of the C3 theorem, at the
first chunk of the refuting run. -/
theorem chunkVideo_overlap_example_witness :
    (⟨0, 3, [⟨0, 3, "", "A"⟩], ChunkType.singleSpeaker, ["A"]⟩ : VideoChunk).chunkType ≠
      ChunkType.overlap := by
  refine chunkVideo_overlap_example.2 [⟨0, 3, "", "A"⟩, ⟨2, 4, "", "B"⟩] (1/2) _ ?_
  rw [chunkVideo_overlap_example.1]
  simp

/-! ### Chunk interval disjointness (claim C5) -/

theorem foldl_max_le_of (l : List ℚ) :
    ∀ a b : ℚ, a ≤ b → (∀ x ∈ l, x ≤ b) → l.foldl max a ≤ b := by
  induction l with
  | nil => intro a b h _; simpa using h
  | cons y ys ih =>
      intro a b h hall
      exact ih (max a y) b (max_le h (hall y (by simp)))
        (fun x hx => hall x (by simp [hx]))

theorem le_foldl_max (l : List ℚ) : ∀ a : ℚ, a ≤ l.foldl max a := by
  induction l with
  | nil => intro a; simp
  | cons y ys ih =>
      intro a
      calc a ≤ max a y := le_max_left _ _
        _ ≤ ys.foldl max (max a y) := ih _

theorem mem_le_foldl_max (l : List ℚ) : ∀ a x : ℚ, x ∈ l → x ≤ l.foldl max a := by
  induction l with
  | nil => intro a x hx; simp at hx
  | cons y ys ih =>
      intro a x hx
      rcases List.mem_cons.mp hx with rfl | hx
      · calc x ≤ max a x := le_max_right _ _
          _ ≤ ys.foldl max (max a x) := le_foldl_max ys _
      · exact ih _ x hx

theorem le_listMaxQ {x : ℚ} {l : List ℚ} (hx : x ∈ l) : x ≤ listMaxQ l := by
  cases l with
  | nil => simp at hx
  | cons y ys =>
      rcases List.mem_cons.mp hx with rfl | hx
      · exact le_foldl_max ys x
      · exact mem_le_foldl_max ys y x hx

theorem listMaxQ_le {l : List ℚ} {b : ℚ} (hne : l ≠ []) (h : ∀ x ∈ l, x ≤ b) :
    listMaxQ l ≤ b := by
  cases l with
  | nil => exact absurd rfl hne
  | cons y ys =>
      exact foldl_max_le_of ys y b (h y (by simp)) (fun x hx => h x (by simp [hx]))

theorem createChunk_startTime (segs : List DialogueSegment) (t : ℚ) (o : Bool) :
    (createChunk segs t o).startTime = t := rfl

theorem createChunk_endTime (segs : List DialogueSegment) (t : ℚ) (o : Bool) :
    (createChunk segs t o).endTime = listMaxQ (segs.map (fun s => s.endTime)) := rfl

/-- chunkStep either flushes the open chunk and restarts from the new
segment, or pushes the segment onto the open chunk. -/
theorem chunkStep_cases (g : ℚ) (prev : Option DialogueSegment)
    (seg : DialogueSegment) (st : ChunkState) :
    chunkStep g prev seg st =
      ⟨st.chunks ++ [createChunk st.currentChunk st.currentStartTime st.hasOverlap],
        [seg], seg.startTime, [seg.speakerId], false⟩ ∨
    ∃ sp ov, chunkStep g prev seg st =
      ⟨st.chunks, st.currentChunk ++ [seg], st.currentStartTime, sp, ov⟩ := by
  simp only [chunkStep]
  split
  · exact Or.inl rfl
  · exact Or.inr ⟨_, _, rfl⟩

theorem mem_of_getLast?_sound {α : Type} {l : List α} {x : α} (h : x ∈ l.getLast?) :
    x ∈ l := by
  obtain ⟨hne, rfl⟩ := List.mem_getLast?_eq_getLast h
  exact List.getLast_mem hne

theorem chunkLoop_inv_disjoint (g : ℚ) (l : List DialogueSegment) :
    ∀ (p : DialogueSegment) (st : ChunkState),
      List.Chain' segSeq (p :: l) →
      (∀ s ∈ l, s.startTime ≤ s.endTime) →
      st.currentChunk ≠ [] →
      (∀ s ∈ st.currentChunk, s.endTime ≤ p.endTime) →
      (∃ s ∈ st.currentChunk, st.currentStartTime ≤ s.endTime) →
      List.Chain' chunkSeq st.chunks →
      (∀ c ∈ st.chunks, c.startTime ≤ c.endTime) →
      (∀ c ∈ st.chunks, c.endTime ≤ st.currentStartTime) →
      List.Chain' chunkSeq (finalFlush (chunkLoop g (some p) l st)) ∧
        ∀ c ∈ finalFlush (chunkLoop g (some p) l st), c.startTime ≤ c.endTime := by
  induction l with
  | nil =>
      intro p st _ _ hne hbound ⟨s, hs, hcs⟩ hchain hse hend
      simp only [chunkLoop]
      unfold finalFlush
      rw [if_pos hne]
      constructor
      · rw [List.chain'_append]
        refine ⟨hchain, List.chain'_singleton _, ?_⟩
        intro x hx y hy
        rcases List.head?_eq_head (l := [createChunk st.currentChunk st.currentStartTime st.hasOverlap]) (by simp) ▸ hy with h
        simp only [List.head?_cons, Option.mem_def, Option.some.injEq] at hy
        subst hy
        have hxmem : x ∈ st.chunks := mem_of_getLast?_sound hx
        exact le_trans (hend x hxmem) (le_of_eq (createChunk_startTime _ _ _).symm)
      · intro c hc
        rcases List.mem_append.mp hc with hc | hc
        · exact hse c hc
        · rcases List.mem_singleton.mp hc with rfl
          rw [createChunk_startTime, createChunk_endTime]
          exact le_trans hcs (le_listMaxQ (List.mem_map_of_mem _ hs))
  | cons seg rest ih =>
      intro p st hchainseg hall hne hbound hex hchain hse hend
      have hps : segSeq p seg := (List.chain'_cons.mp hchainseg).1
      have hchainrest : List.Chain' segSeq (seg :: rest) := (List.chain'_cons.mp hchainseg).2
      have hsegse : seg.startTime ≤ seg.endTime := hall seg (by simp)
      rw [chunkLoop]
      rcases chunkStep_cases g (some p) seg st with hstep | ⟨sp, ov, hstep⟩
      · rw [hstep]
        refine ih seg _ hchainrest (fun s hs => hall s (by simp [hs])) (by simp)
          (by simp) ⟨seg, by simp, hsegse⟩ ?_ ?_ ?_
        · rw [List.chain'_append]
          refine ⟨hchain, List.chain'_singleton _, ?_⟩
          intro x hx y hy
          simp only [List.head?_cons, Option.mem_def, Option.some.injEq] at hy
          subst hy
          have hxmem : x ∈ st.chunks := mem_of_getLast?_sound hx
          exact le_trans (hend x hxmem) (le_of_eq (createChunk_startTime _ _ _).symm)
        · intro c hc
          rcases List.mem_append.mp hc with hc | hc
          · exact hse c hc
          · rcases List.mem_singleton.mp hc with rfl
            obtain ⟨s, hs, hcs⟩ := hex
            rw [createChunk_startTime, createChunk_endTime]
            exact le_trans hcs (le_listMaxQ (List.mem_map_of_mem _ hs))
        · intro c hc
          rcases List.mem_append.mp hc with hc | hc
          · obtain ⟨s, hs, hcs⟩ := hex
            calc c.endTime ≤ st.currentStartTime := hend c hc
              _ ≤ s.endTime := hcs
              _ ≤ p.endTime := hbound s hs
              _ ≤ seg.startTime := hps
          · rcases List.mem_singleton.mp hc with rfl
            rw [createChunk_endTime]
            refine le_trans (listMaxQ_le ?_ ?_) hps
            · simpa using hne
            · intro x hx
              obtain ⟨s, hs, rfl⟩ := List.mem_map.mp hx
              exact hbound s hs
      · rw [hstep]
        refine ih seg _ hchainrest (fun s hs => hall s (by simp [hs])) (by simp)
          ?_ ?_ hchain hse hend
        · intro s hs
          rcases List.mem_append.mp hs with hs | hs
          · calc s.endTime ≤ p.endTime := hbound s hs
              _ ≤ seg.startTime := hps
              _ ≤ seg.endTime := hsegse
          · rcases List.mem_singleton.mp hs with rfl
            exact le_refl _
        · obtain ⟨s, hs, hcs⟩ := hex
          exact ⟨s, by simp [hs], hcs⟩

theorem chain_head_bound (t : List VideoChunk) :
    ∀ c : VideoChunk, List.Chain' chunkSeq (c :: t) →
      (∀ x ∈ t, x.startTime ≤ x.endTime) →
      ∀ d ∈ t, c.endTime ≤ d.startTime := by
  induction t with
  | nil => intro c _ _ d hd; simp at hd
  | cons d0 tl ih =>
      intro c hc hse d hd
      have h1 : chunkSeq c d0 := (List.chain'_cons.mp hc).1
      rcases List.mem_cons.mp hd with rfl | hd
      · exact h1
      · calc c.endTime ≤ d0.startTime := h1
          _ ≤ d0.endTime := hse d0 (by simp)
          _ ≤ d.startTime := ih d0 (List.chain'_cons.mp hc).2
            (fun x hx => hse x (by simp [hx])) d hd

theorem chain_to_pairwise (l : List VideoChunk)
    (hc : List.Chain' chunkSeq l) (hse : ∀ c ∈ l, c.startTime ≤ c.endTime) :
    List.Pairwise chunkDisjoint l := by
  induction l with
  | nil => exact List.Pairwise.nil
  | cons c t ih =>
      refine List.Pairwise.cons ?_ (ih hc.tail (fun d hd => hse d (by simp [hd])))
      intro d hd
      exact Or.inl (chain_head_bound t c hc (fun x hx => hse x (by simp [hx])) d hd)

theorem chunkStep_first (g : ℚ) (t0 : DialogueSegment) :
    chunkStep g none t0 ⟨[], [], t0.startTime, [], false⟩ =
      ⟨[], [t0], t0.startTime, addSpeaker [] t0.speakerId, false⟩ := by
  simp [chunkStep]

/-- Claim C5: refuting counterexample. On segments A over [0,3] and
B over [2,4] the two returned chunks cover [0,3) and [2,4), which
intersect on [2,3): the chunks of one chunking pass are not pairwise
non-overlapping. -/
theorem chunkVideo_ranges_overlap_example :
    chunkVideo [⟨0, 3, "", "A"⟩, ⟨2, 4, "", "B"⟩] (1/2) =
      [⟨0, 3, [⟨0, 3, "", "A"⟩], ChunkType.singleSpeaker, ["A"]⟩,
       ⟨2, 4, [⟨2, 4, "", "B"⟩], ChunkType.singleSpeaker, ["B"]⟩] ∧
    ¬ List.Pairwise chunkDisjoint
        (chunkVideo [⟨0, 3, "", "A"⟩, ⟨2, 4, "", "B"⟩] (1/2)) := by
  have heval : chunkVideo [⟨0, 3, "", "A"⟩, ⟨2, 4, "", "B"⟩] (1/2) =
      [⟨0, 3, [⟨0, 3, "", "A"⟩], ChunkType.singleSpeaker, ["A"]⟩,
       ⟨2, 4, [⟨2, 4, "", "B"⟩], ChunkType.singleSpeaker, ["B"]⟩] := by
    norm_num [chunkVideo, sortByStart, List.insertionSort, List.orderedInsert, segLE,
      chunkLoop, chunkStep, finalFlush, createChunk, uniqueFirst, listMaxQ, addSpeaker]
  refine ⟨heval, ?_⟩
  rw [heval]
  intro hp
  have := List.rel_of_pairwise_cons hp (List.mem_singleton_self _)
  rcases this with h | h <;> norm_num [chunkDisjoint] at h ⊢

/-- Claim C5, amended: if in sorted order consecutive segments never
overlap (each segment ends no later than the next starts) and every
segment's start is no later than its end, then the chunks returned by
one chunkVideo pass have pairwise non-intersecting half-open time
ranges. On inputs with overlapping segments the property fails, as the
counterexample shows. -/
theorem chunkVideo_disjoint_of_sequential (segs : List DialogueSegment) (g : ℚ)
    (hchain : List.Chain' segSeq (sortByStart segs))
    (hse : ∀ s ∈ segs, s.startTime ≤ s.endTime) :
    List.Pairwise chunkDisjoint (chunkVideo segs g) := by
  cases segs with
  | nil => simp [chunkVideo]
  | cons s0 rest =>
      have hperm := List.perm_insertionSort segLE (s0 :: rest)
      have hne : sortByStart (s0 :: rest) ≠ [] := by
        intro h
        have hl := hperm.length_eq
        rw [show List.insertionSort segLE (s0 :: rest) = sortByStart (s0 :: rest) from rfl,
          h] at hl
        simp at hl
      obtain ⟨t0, ts, hsort⟩ := List.exists_cons_of_ne_nil hne
      have hmem : ∀ s ∈ sortByStart (s0 :: rest), s.startTime ≤ s.endTime := fun s hs =>
        hse s (hperm.mem_iff.mp hs)
      have ht0 : t0 ∈ sortByStart (s0 :: rest) := by rw [hsort]; simp
      rw [chunkVideo_eq, hsort]
      simp only [List.headI]
      rw [chunkLoop, chunkStep_first]
      have hinv := chunkLoop_inv_disjoint g ts t0
        ⟨[], [t0], t0.startTime, addSpeaker [] t0.speakerId, false⟩
        (hsort ▸ hchain)
        (fun s hs => hmem s (by rw [hsort]; simp [hs]))
        (by simp)
        (by simp)
        ⟨t0, by simp, hmem t0 ht0⟩
        List.chain'_nil
        (by simp)
        (by simp)
      exact chain_to_pairwise _ hinv.1 hinv.2

/-- Witness for the amended C5 theorem on two sequential segments. -/
theorem chunkVideo_disjoint_of_sequential_witness :
    List.Pairwise chunkDisjoint
      (chunkVideo [⟨0, 1, "", "A"⟩, ⟨2, 3, "", "B"⟩] (1/2)) := by
  refine chunkVideo_disjoint_of_sequential _ (1/2) ?_ ?_
  · norm_num [sortByStart, List.insertionSort, List.orderedInsert, segLE, segSeq]
  · intro s hs
    rcases List.mem_cons.mp hs with rfl | hs
    · norm_num
    · rcases List.mem_singleton.mp hs with rfl
      norm_num

/-! ### Grouping lemmas and claim C8 -/

theorem groupsSegs_closeGroup (groups : List SpeakerGroup) (sid : String)
    (g : List DialogueSegment) :
    groupsSegs (closeGroup groups sid (some g)) = groupsSegs groups ++ g := by
  simp [closeGroup, groupsSegs]

theorem groupLoop_segs (l : List DialogueSegment) :
    ∀ (groups : List SpeakerGroup) (g : List DialogueSegment) (sid : String),
      groupsSegs (groupLoop groups (some g) sid l) = groupsSegs groups ++ g ++ l := by
  induction l with
  | nil =>
      intro groups g sid
      simp [groupLoop, groupsSegs_closeGroup]
  | cons seg rest ih =>
      intro groups g sid
      rw [groupLoop]
      split
      · rw [ih, groupsSegs_closeGroup]
        simp
      · rw [show (some g).map (fun gl => gl ++ [seg]) = some (g ++ [seg]) from rfl, ih]
        simp

theorem groupSegmentsBySpeaker_segs (s0 : DialogueSegment) (rest : List DialogueSegment)
    (h : s0.speakerId ≠ "") :
    groupsSegs (groupSegmentsBySpeaker (s0 :: rest)) = s0 :: rest := by
  unfold groupSegmentsBySpeaker
  rw [groupLoop]
  split
  · rw [show closeGroup [] "" none = [] from rfl, groupLoop_segs]
    simp [groupsSegs]
  · next hcond => exact absurd h (by simpa using hcond)

/-- Claim C8: refuting counterexample. A single segment whose speakerId is
the empty string is silently dropped by the grouping pass (the initial
currentSpeakerId sentinel is also the empty string and the optional-chained
push is a no-op on the null initial group), so batchOptimizeTranslations
returns no output for a one-segment input instead of one segment. -/
theorem batchOptimize_drops_empty_speaker :
    batchOptimizeTranslations (fun _ seg => seg.transcription)
        [⟨0, 1, "hi", ""⟩] = [] ∧
      ([⟨0, 1, "hi", ""⟩] : List DialogueSegment).length = 1 := by
  constructor
  · rfl
  · rfl

/-- Claim C8, amended: provided the first segment's speakerId is not the
empty string (the initial sentinel of the grouping loop),
batchOptimizeTranslations returns exactly one TranslatedSegment per input
segment, in input order, each inheriting speakerId, startTime and endTime
unchanged from its source segment, for every choice of the external
per-segment translator. -/
theorem batchOptimize_preserves_order_and_timing
    (tr : SpeakerGroup → DialogueSegment → String) (segs : List DialogueSegment)
    (h : ∀ s0 ∈ segs.head?, s0.speakerId ≠ "") :
    (batchOptimizeTranslations tr segs).map
        (fun t => (t.speakerId, t.startTime, t.endTime)) =
      segs.map (fun s => (s.speakerId, s.startTime, s.endTime)) := by
  cases segs with
  | nil => rfl
  | cons s0 rest =>
      have h0 : s0.speakerId ≠ "" := h s0 (by simp)
      have hsegs := groupSegmentsBySpeaker_segs s0 rest h0
      unfold batchOptimizeTranslations
      conv_rhs => rw [← hsegs]
      simp only [groupsSegs]
      rw [List.map_flatten, List.map_flatten, List.map_map, List.map_map]
      congr 1
      refine List.map_congr_left ?_
      intro g _
      simp only [Function.comp_apply]
      rw [List.map_map]
      rfl

/-- Witness for the amended C8 theorem: one two-segment input. -/
theorem batchOptimize_preserves_order_and_timing_witness :
    (batchOptimizeTranslations (fun _ seg => seg.transcription)
        [⟨0, 1, "a", "S1"⟩, ⟨1, 2, "b", "S2"⟩]).map
        (fun t => (t.speakerId, t.startTime, t.endTime)) =
      [⟨0, 1, "a", "S1"⟩, (⟨1, 2, "b", "S2"⟩ : DialogueSegment)].map
        (fun s => (s.speakerId, s.startTime, s.endTime)) := by
  refine batchOptimize_preserves_order_and_timing _ _ ?_
  intro s0 hs0
  simp only [List.head?_cons, Option.mem_def, Option.some.injEq] at hs0
  subst hs0
  simp

/-! ### Codec lemmas and claim C4 -/

theorem bytes_roundtrip (n : ℤ) (h1 : -32768 ≤ n) (h2 : n < 32768) :
    bytesToInt16 (((n % 65536).toNat) % 256) (((n % 65536).toNat) / 256) = n := by
  have hu0 : 0 ≤ n % 65536 := Int.emod_nonneg n (by norm_num)
  have hu1 : n % 65536 < 65536 := Int.emod_lt_of_pos n (by norm_num)
  have hcast : (((n % 65536).toNat : ℤ)) = n % 65536 := Int.toNat_of_nonneg hu0
  have hsum : ((((n % 65536).toNat) % 256 : ℕ) : ℤ) +
      256 * ((((n % 65536).toNat) / 256 : ℕ) : ℤ) = n % 65536 := by
    rw [← hcast]
    exact_mod_cast congrArg (Nat.cast : ℕ → ℤ)
      (Nat.mod_add_div ((n % 65536).toNat) 256)
  unfold bytesToInt16
  rw [hsum]
  by_cases hn : 0 ≤ n
  · have hu : n % 65536 = n :=
      Int.emod_eq_of_lt hn (lt_trans h2 (by norm_num))
    rw [hu, if_pos h2]
  · push_neg at hn
    have hu : n % 65536 = n + 65536 := by
      have := Int.add_mul_emod_self_left (a := n) (b := 65536) (c := 1)
      rw [mul_one] at this
      rw [← this]
      exact Int.emod_eq_of_lt (by omega) (by omega)
    rw [hu, if_neg (by omega)]
    omega

theorem encodeSample_close (x : ℚ) (h1 : -1 ≤ x) (h2 : x ≤ 1) :
    -32768 ≤ encodeSample x ∧ encodeSample x < 32768 ∧
      |x - (encodeSample x : ℚ) / 32768| < 1 / 16384 := by
  have hclamp : clamp1 x = x := by
    unfold clamp1
    rw [min_eq_right h2, max_eq_right h1]
  have hE : encodeSample x = truncQ (x * 32767) := by
    unfold encodeSample
    rw [hclamp]
  have hy1 : -32767 ≤ x * 32767 := by nlinarith
  have hy2 : x * 32767 ≤ 32767 := by nlinarith
  have key : ∀ t : ℤ, (t : ℚ) ≤ 32767 → (-32767 : ℚ) ≤ (t : ℚ) →
      |x * 32767 - t| < 1 → -32768 ≤ t ∧ t < 32768 ∧
        |x - (t : ℚ) / 32768| < 1 / 16384 := by
    intro t hta htb habs
    have ht1 : (-32768 : ℚ) ≤ t := by linarith
    have ht2 : (t : ℚ) < 32768 := by linarith
    refine ⟨by exact_mod_cast ht1, by exact_mod_cast ht2, ?_⟩
    have h3 : x - (t : ℚ) / 32768 = (x * 32767 - t + x) / 32768 := by ring
    rw [h3, abs_div]
    rw [abs_of_pos (show (0:ℚ) < 32768 by norm_num)]
    rw [div_lt_div_iff₀ (by norm_num) (by norm_num)]
    have h4 : |x * 32767 - t + x| ≤ |x * 32767 - t| + |x| := abs_add _ _
    have h5 : |x| ≤ 1 := abs_le.mpr ⟨h1, h2⟩
    nlinarith
  rw [hE]
  unfold truncQ
  by_cases hy : 0 ≤ x * 32767
  · rw [if_pos hy]
    have ha := Int.floor_le (x * 32767)
    have hb := Int.lt_floor_add_one (x * 32767)
    have hnn : (0 : ℚ) ≤ (⌊x * 32767⌋ : ℚ) := by
      exact_mod_cast Int.floor_nonneg.mpr hy
    refine key _ (by linarith) (by linarith) ?_
    rw [abs_sub_lt_iff]
    constructor <;> linarith
  · rw [if_neg hy]
    push_neg at hy
    have ha := Int.le_ceil (x * 32767)
    have hb := Int.ceil_lt_add_one (x * 32767)
    have hnp : ((⌈x * 32767⌉ : ℚ)) ≤ 0 := by
      have h0 : ⌈x * 32767⌉ ≤ (0 : ℤ) := Int.ceil_le.mpr (by exact_mod_cast le_of_lt hy)
      exact_mod_cast h0
    refine key _ (by linarith) (by linarith) ?_
    rw [abs_sub_lt_iff]
    constructor <;> linarith

theorem decodePcmBytes_cons (n : ℤ) (rest : List ℕ) :
    decodePcmBytes (int16ToBytesLE n ++ rest) =
      ((bytesToInt16 (((n % 65536).toNat) % 256) (((n % 65536).toNat) / 256) : ℚ) / 32768)
        :: decodePcmBytes rest := rfl

/-- Claim C4: refuting counterexample. The encoder truncates (an
Int16Array store), scales by 32767, and the decoder divides by 32768;
at sample 0.9 the reconstruction error is 3/81920, which exceeds the
claimed 16-bit quantization bound 1/32768. The same value also refutes
the bound for the round-to-nearest conversion stated by the
specification, since 0.9 times 32767 rounds and truncates alike. -/
theorem decode_encode_error_exceeds :
    decodePcmBytes (encodePcmBytes [9/10]) = [14745/16384] ∧
      1/32768 < |(9/10 : ℚ) - 14745/16384| := by
  constructor
  · have henc : encodeSample (9/10) = 29490 := by
      unfold encodeSample clamp1 truncQ
      rw [min_eq_right (by norm_num), max_eq_right (by norm_num),
        if_pos (by norm_num)]
      have : ((9:ℚ)/10 * 32767) = 294903/10 := by norm_num
      rw [this]
      norm_num [Int.floor_eq_iff]
    show decodePcmBytes (int16ToBytesLE (encodeSample (9/10)) ++ []) = _
    rw [decodePcmBytes_cons, henc]
    norm_num [decodePcmBytes, bytesToInt16]
  · rw [abs_of_pos (by norm_num)]
    norm_num

/-- Claim C4, amended: for every sample sequence with values in [-1,1],
decoding the encoded 16-bit PCM stream reproduces each sample within
strictly less than 2/32768 = 1/16384 absolute error (truncating encoder
at scale 32767, decoder at scale 32768); the claimed 1/32768 bound fails,
as the counterexample at 0.9 shows. -/
theorem decode_encode_roundtrip (samples : List ℚ)
    (h : ∀ x ∈ samples, -1 ≤ x ∧ x ≤ 1) :
    List.Forall₂ (fun s d => |s - d| < 1 / 16384) samples
      (decodePcmBytes (encodePcmBytes samples)) := by
  induction samples with
  | nil => exact List.Forall₂.nil
  | cons x xs ih =>
      obtain ⟨hx1, hx2⟩ := h x (by simp)
      obtain ⟨hb1, hb2, herr⟩ := encodeSample_close x hx1 hx2
      have hstep : encodePcmBytes (x :: xs) =
          int16ToBytesLE (encodeSample x) ++ encodePcmBytes xs := by
        simp [encodePcmBytes]
      rw [hstep, decodePcmBytes_cons, bytes_roundtrip _ hb1 hb2]
      exact List.Forall₂.cons herr (ih (fun y hy => h y (by simp [hy])))

/-- Witness for the amended C4 theorem at the sample 1/2. -/
theorem decode_encode_roundtrip_witness :
    List.Forall₂ (fun s d => |s - d| < 1 / 16384) [(1:ℚ)/2]
      (decodePcmBytes (encodePcmBytes [(1:ℚ)/2])) := by
  refine decode_encode_roundtrip [(1:ℚ)/2] ?_
  intro x hx
  rcases List.mem_singleton.mp hx with rfl
  norm_num

/-! ### Mixer and analyzer lemmas and claims -/

/-- Claim C2: refuted at the knee. At sample 0.79 (inside the knee window
0.75 to 0.8) the limiter multiplies by the gain
1 + (ratio - 1) * kneeAmount^2 = 2.76, which is greater than one, so the
output magnitude 2.1804 exceeds the input magnitude 0.79 instead of the
claimed gain reduction; the limiter amplifies inside the knee. -/
theorem limiter_amplifies_in_knee :
    limitSample (79/100) = 5451/2500 ∧ (79/100 : ℝ) < |(5451/2500 : ℝ)| := by
  constructor
  · simp only [limitSample]
    rw [abs_of_pos (show (0:ℝ) < 79/100 by norm_num)]
    rw [if_pos (by norm_num), if_pos (by norm_num)]
    norm_num
  · rw [abs_of_pos (by norm_num)]
    norm_num

theorem foldl_max_abs_zero (l : List ℝ) (hz : ∀ x ∈ l, x = 0) :
    ∀ a : ℝ, 0 ≤ a → l.foldl (fun p x => max p |x|) a = a := by
  induction l with
  | nil => intro a _; rfl
  | cons y ys ih =>
      intro a ha
      have hy : y = 0 := hz y (by simp)
      rw [List.foldl_cons, hy]
      rw [show |(0:ℝ)| = 0 from abs_zero, max_eq_left ha]
      exact ih (fun x hx => hz x (by simp [hx])) a ha

theorem foldl_sum_sq_zero (l : List ℝ) (hz : ∀ x ∈ l, x = 0) :
    ∀ a : ℝ, l.foldl (fun s x => s + |x| * |x|) a = a := by
  induction l with
  | nil => intro a; rfl
  | cons y ys ih =>
      intro a
      have hy : y = 0 := hz y (by simp)
      rw [List.foldl_cons, hy]
      simp only [abs_zero, mul_zero, add_zero]
      exact ih (fun x hx => hz x (by simp [hx])) a

/-- Claim C10: on a non-empty all-zero clip the analyzer returns peak 0,
rms 0, and recommended gain 1.5: the division 0.95 / max(peak, rms) with
a zero denominator yields positive infinity in the source language and
the 1.5 cap absorbs it, so no fault occurs; the analyzer map carries the
same record for the clip's speaker. -/
theorem analyzePeaks_silence (sid : String) (data : List ℝ) (_hne : data ≠ [])
    (hz : ∀ x ∈ data, x = 0) :
    analyzeClip data = ⟨0, 0, 3/2⟩ ∧
      analyzeAudioPeaks [(sid, data)] = [(sid, ⟨0, 0, 3/2⟩)] := by
  have hpeak : data.foldl (fun p x => max p |x|) 0 = 0 :=
    foldl_max_abs_zero data hz 0 le_rfl
  have hsum : data.foldl (fun s x => s + |x| * |x|) 0 = 0 :=
    foldl_sum_sq_zero data hz 0
  have hclip : analyzeClip data = ⟨0, 0, 3/2⟩ := by
    simp only [analyzeClip, hpeak, hsum]
    rw [zero_div, Real.sqrt_zero]
    rw [max_self, if_pos rfl]
  refine ⟨hclip, ?_⟩
  simp [analyzeAudioPeaks, mapSet, hclip]

/-- Witness for the C10 theorem on the one-sample silent clip. -/
theorem analyzePeaks_silence_witness :
    analyzeClip [(0:ℝ)] = ⟨0, 0, 3/2⟩ ∧
      analyzeAudioPeaks [("S", [(0:ℝ)])] = [("S", ⟨0, 0, 3/2⟩)] := by
  refine analyzePeaks_silence "S" [(0:ℝ)] ?_ ?_
  · simp
  · intro x hx
    rcases List.mem_singleton.mp hx with rfl
    rfl

theorem map_range_getD (f : ℕ → ℝ) (len j : ℕ) (hj : j < len) :
    ((List.range len).map f).getD j 0 = f j := by
  rw [List.getD_eq_getElem?_getD, List.getElem?_map, List.getElem?_range hj]
  rfl

theorem clipContrib_out (c : AudioClip) (n j : ℕ)
    (h : (j : ℤ) < startSampleOf c ∨ (startSampleOf c + c.samples.length : ℤ) ≤ j) :
    clipContrib c n j = 0 := by
  unfold clipContrib
  rw [if_neg]
  omega

theorem getD_replicate_one (L k : ℕ) (hk : k < L) :
    (List.replicate L (1:ℝ)).getD k 0 = 1 := by
  rw [List.getD_eq_getElem?_getD, List.getElem?_replicate]
  simp [hk]

theorem clipContrib_in (c : AudioClip) (n j : ℕ) (s : ℕ)
    (hs : startSampleOf c = (s : ℤ)) (h1 : s ≤ j) (h2 : j < s + c.samples.length) :
    clipContrib c n j = c.samples.getD (j - s) 0 * calculateNormalizedGain n c.volume := by
  unfold clipContrib
  rw [hs, if_pos (by omega)]
  congr 1
  congr 1
  omega

/-- Claim C7: the accumulation step of mixAudioBuffers on exactly two
unit-amplitude clips of length L with volume one and disjoint sample
ranges inside the buffer produces amplitude 1 / sqrt 2 at every sample
position covered by either clip and exactly zero at every other
position (before the limiter and overlap compression run). -/
theorem two_disjoint_clips_accumulate (L len s1 s2 j : ℕ) (t1 t2 : ℚ)
    (sid1 sid2 : String)
    (h1 : ⌊t1 * 24000⌋ = (s1 : ℤ)) (h2 : ⌊t2 * 24000⌋ = (s2 : ℤ))
    (hd : s1 + L ≤ s2) (_hb : s2 + L ≤ len) (hj : j < len) :
    (accumulateClips
        [⟨List.replicate L 1, t1, sid1, 1⟩, ⟨List.replicate L 1, t2, sid2, 1⟩]
        len).getD j 0 =
      if (s1 ≤ j ∧ j < s1 + L) ∨ (s2 ≤ j ∧ j < s2 + L) then 1 / Real.sqrt 2
      else 0 := by
  have hs1 : startSampleOf ⟨List.replicate L 1, t1, sid1, 1⟩ = (s1 : ℤ) := by
    unfold startSampleOf; exact h1
  have hs2 : startSampleOf ⟨List.replicate L 1, t2, sid2, 1⟩ = (s2 : ℤ) := by
    unfold startSampleOf; exact h2
  have hlen : (⟨List.replicate L 1, t1, sid1, 1⟩ : AudioClip).samples.length = L := by
    simp
  have hlen2 : (⟨List.replicate L 1, t2, sid2, 1⟩ : AudioClip).samples.length = L := by
    simp
  unfold accumulateClips accumulateWithCount
  rw [map_range_getD _ _ _ hj]
  simp only [List.map_cons, List.map_nil, List.sum_cons, List.sum_nil, add_zero,
    List.length_cons, List.length_nil]
  have hgain : calculateNormalizedGain 2 (1:ℝ) = 1 / Real.sqrt 2 := by
    unfold calculateNormalizedGain
    norm_num
  by_cases hj1 : s1 ≤ j ∧ j < s1 + L
  · rw [clipContrib_in _ _ _ s1 hs1 hj1.1 (by rw [hlen]; exact hj1.2)]
    rw [clipContrib_out _ _ _ (by rw [hs2, hlen2]; left; omega)]
    rw [getD_replicate_one L (j - s1) (by omega), one_mul, add_zero, hgain,
      if_pos (Or.inl hj1)]
  · by_cases hj2 : s2 ≤ j ∧ j < s2 + L
    · rw [clipContrib_out _ _ _ (by rw [hs1, hlen]; omega)]
      rw [clipContrib_in _ _ _ s2 hs2 hj2.1 (by rw [hlen2]; exact hj2.2)]
      rw [getD_replicate_one L (j - s2) (by omega), one_mul, zero_add, hgain,
        if_pos (Or.inr hj2)]
    · rw [clipContrib_out _ _ _ (by rw [hs1, hlen]; omega)]
      rw [clipContrib_out _ _ _ (by rw [hs2, hlen2]; omega)]
      rw [if_neg (by tauto), add_zero]

/-- Witness for the C7 theorem: two one-sample clips at samples 0 and 1
of a two-sample buffer, read at position 0. -/
theorem two_disjoint_clips_accumulate_witness :
    (accumulateClips
        [⟨List.replicate 1 1, 0, "A", 1⟩, ⟨List.replicate 1 1, 1/24000, "B", 1⟩]
        2).getD 0 0 = 1 / Real.sqrt 2 := by
  have h := two_disjoint_clips_accumulate 1 2 0 1 0 0 (1/24000) "A" "B"
    (by norm_num) (by norm_num) (by norm_num) (by norm_num) (by norm_num)
  rw [if_pos (Or.inl ⟨le_rfl, by norm_num⟩)] at h
  exact h

/-- Claim C6: refuting counterexample. A clip starting one sample before
the buffer (startTime -1/24000, two samples of value 0.5) is not dropped:
its write at index -1 is a silent no-op but its second sample lands at
index 0, so the one-sample output buffer holds 0.5 instead of silence:
a negative-start clip still contributes its in-range samples. -/
theorem neg_start_clip_contributes :
    mixAudioBuffers [⟨[1/2, 1/2], -(1/24000), "A", 1⟩] (1/24000) = [(1/2 : ℝ)] ∧
      ((1:ℝ)/2) ≠ 0 := by
  have hs : startSampleOf ⟨[1/2, 1/2], -(1/24000), "A", 1⟩ = (-1 : ℤ) := by
    unfold startSampleOf
    norm_num
  have hlen : bufLen (1/24000) = 1 := by
    unfold bufLen
    norm_num
  have hgain : calculateNormalizedGain 1 (1:ℝ) = 1 := by
    unfold calculateNormalizedGain
    simp
  have hcontrib : clipContrib ⟨[1/2, 1/2], -(1/24000), "A", 1⟩ 1 0 = 1/2 := by
    unfold clipContrib
    rw [hs]
    rw [if_pos (by norm_num)]
    norm_num [hgain]
  have hacc : accumulateClips [⟨[1/2, 1/2], -(1/24000), "A", 1⟩] 1 = [(1/2 : ℝ)] := by
    unfold accumulateClips accumulateWithCount
    rw [show List.range 1 = [0] from rfl]
    simp only [List.map_cons, List.map_nil, List.sum_cons, List.sum_nil, add_zero,
      List.length_cons, List.length_nil]
    rw [show (0:ℕ) + 1 = 1 from rfl, hcontrib]
  have hlim : applySoftLimiter [(1/2 : ℝ)] = [(1/2 : ℝ)] := by
    unfold applySoftLimiter
    simp only [List.map_cons, List.map_nil]
    congr 1
    simp only [limitSample]
    rw [if_neg]
    rw [abs_of_pos (by norm_num)]
    norm_num
  have hchan : timelineChannels [⟨[1/2, 1/2], -(1/24000), "A", 1⟩] = [(-1, 1)] := by
    simp only [timelineChannels, List.map_cons, List.map_nil]
    rw [hs]
    norm_num
  constructor
  · unfold mixAudioBuffers
    rw [hlen, hacc, hlim, hchan]
    unfold compressOverlapRegions
    rw [show [(1/2 : ℝ)].length = 1 from rfl, show List.range 1 = [0] from rfl]
    simp only [List.map_cons, List.map_nil]
    rw [if_neg (by rw [show overlapCount [(-1, 1)] 0 = 1 from rfl]; norm_num)]
    rfl
  · norm_num

/-- Claim C6, amended: the mixer never faults; a clip whose whole sample
range lies outside the buffer (entirely before index 0 or entirely at or
beyond the buffer length) contributes nothing: its per-index contribution
is zero at every buffer index and dropping it from the accumulation loop
(with the gain divisor n unchanged) leaves the accumulated buffer
identical. A clip with negative startTime whose tail reaches index 0,
however, does contribute those in-range samples, as the counterexample
shows. -/
theorem outside_clip_contributes_nothing (c : AudioClip) (cs : List AudioClip)
    (n j len : ℕ)
    (hout : startSampleOf c + c.samples.length ≤ 0 ∨ (len : ℤ) ≤ startSampleOf c)
    (hj : j < len) :
    clipContrib c n j = 0 ∧
      accumulateWithCount (c :: cs) n len = accumulateWithCount cs n len := by
  have hzero : ∀ k : ℕ, k < len → clipContrib c n k = 0 := by
    intro k hk
    unfold clipContrib
    rw [if_neg]
    omega
  refine ⟨hzero j hj, ?_⟩
  unfold accumulateWithCount
  refine List.map_congr_left ?_
  intro k hk
  rw [List.mem_range] at hk
  simp [hzero k hk]

/-- Witness for the amended C6 theorem: a two-sample clip ending exactly
at index 0 of a one-sample buffer. -/
theorem outside_clip_contributes_nothing_witness :
    clipContrib ⟨[1/2, 1/2], -(2/24000), "A", 1⟩ 1 0 = 0 ∧
      accumulateWithCount [⟨[1/2, 1/2], -(2/24000), "A", 1⟩] 1 1 =
        accumulateWithCount [] 1 1 := by
  refine outside_clip_contributes_nothing ⟨[1/2, 1/2], -(2/24000), "A", 1⟩ [] 1 0 1 ?_ ?_
  · left
    rw [show startSampleOf ⟨[1/2, 1/2], -(2/24000), "A", 1⟩ = (-2 : ℤ) by
      unfold startSampleOf; norm_num]
    norm_num
  · norm_num

/-- Claim C1: refuting counterexample. A single clip with one sample of
amplitude 1 and volume 4 accumulates to 4; the limiter sends it to
0.8 + (4 - 0.8) / 12 = 16/15, and the overlap compressor leaves it
untouched (only one channel covers the index), so the returned master
buffer holds 16/15, whose absolute value exceeds 1. -/
theorem mix_output_exceeds_one :
    mixAudioBuffers [⟨[1], 0, "A", 4⟩] (1/24000) = [(16/15 : ℝ)] ∧
      (1:ℝ) < |(16/15 : ℝ)| := by
  have hs : startSampleOf ⟨[1], 0, "A", 4⟩ = (0 : ℤ) := by
    unfold startSampleOf
    norm_num
  have hlen : bufLen (1/24000) = 1 := by
    unfold bufLen
    norm_num
  have hgain : calculateNormalizedGain 1 (4:ℝ) = 4 := by
    unfold calculateNormalizedGain
    simp
  have hcontrib : clipContrib ⟨[1], 0, "A", 4⟩ 1 0 = 4 := by
    unfold clipContrib
    rw [hs]
    rw [if_pos (by norm_num)]
    norm_num [hgain]
  have hacc : accumulateClips [⟨[1], 0, "A", 4⟩] 1 = [(4 : ℝ)] := by
    unfold accumulateClips accumulateWithCount
    rw [show List.range 1 = [0] from rfl]
    simp only [List.map_cons, List.map_nil, List.sum_cons, List.sum_nil, add_zero,
      List.length_cons, List.length_nil]
    rw [show (0:ℕ) + 1 = 1 from rfl, hcontrib]
  have hlim : applySoftLimiter [(4 : ℝ)] = [(16/15 : ℝ)] := by
    unfold applySoftLimiter
    simp only [List.map_cons, List.map_nil]
    congr 1
    simp only [limitSample]
    rw [abs_of_pos (show (0:ℝ) < 4 by norm_num)]
    rw [if_pos (by norm_num), if_neg (by norm_num)]
    norm_num
  have hchan : timelineChannels [⟨[1], 0, "A", 4⟩] = [(0, 1)] := by
    simp only [timelineChannels, List.map_cons, List.map_nil]
    rw [hs]
    norm_num
  constructor
  · unfold mixAudioBuffers
    rw [hlen, hacc, hlim, hchan]
    unfold compressOverlapRegions
    rw [show [(16/15 : ℝ)].length = 1 from rfl, show List.range 1 = [0] from rfl]
    simp only [List.map_cons, List.map_nil]
    rw [if_neg (by rw [show overlapCount [(0, 1)] 0 = 1 from rfl]; norm_num)]
    rfl
  · rw [abs_of_pos (by norm_num)]
    norm_num

theorem abs_compressSample_le (s : ℝ) : |compressSample s| ≤ |s| := by
  unfold compressSample
  split
  · next h =>
      have hpos : (0:ℝ) < |s| := lt_trans (by norm_num) h
      rw [abs_mul, abs_div, abs_abs, div_self (ne_of_gt hpos), one_mul]
      rw [abs_of_pos (by linarith)]
      linarith
  · exact le_rfl

theorem limitSample_id_of_le (x : ℝ) (h : |x| ≤ 3/4) : limitSample x = x := by
  simp only [limitSample]
  rw [if_neg]
  rw [show (8:ℝ)/10 - (1/10)/2 = 3/4 by norm_num]
  exact not_lt.mpr h

/-- Claim C1, amended: if every sample produced by the accumulation step
has absolute value at most 0.75 (the point below which the limiter is the
identity), then every sample of the returned master buffer has absolute
value at most 1; without that bound the output can exceed 1, as the
counterexample shows (the knee branch amplifies and the 12:1 branch is
unbounded). -/
theorem mix_bounded_of_accum_bounded (clips : List AudioClip) (d : ℚ)
    (hacc : ∀ x ∈ accumulateClips clips (bufLen d), |x| ≤ 3/4) :
    ∀ y ∈ mixAudioBuffers clips d, |y| ≤ 1 := by
  intro y hy
  unfold mixAudioBuffers at hy
  have hlim : applySoftLimiter (accumulateClips clips (bufLen d)) =
      accumulateClips clips (bufLen d) := by
    unfold applySoftLimiter
    calc (accumulateClips clips (bufLen d)).map limitSample
        = (accumulateClips clips (bufLen d)).map id :=
          List.map_congr_left (fun x hx => limitSample_id_of_le x (hacc x hx))
      _ = _ := List.map_id _
  rw [hlim] at hy
  unfold compressOverlapRegions at hy
  rw [List.mem_map] at hy
  obtain ⟨j, hj, rfl⟩ := hy
  rw [List.mem_range] at hj
  have hmem : (accumulateClips clips (bufLen d)).getD j 0 ∈
      accumulateClips clips (bufLen d) := by
    rw [List.getD_eq_getElem?_getD, List.getElem?_eq_getElem hj]
    exact List.getElem_mem hj
  have hb := hacc _ hmem
  split
  · exact le_trans (le_trans (abs_compressSample_le _) hb) (by norm_num)
  · exact le_trans hb (by norm_num)

theorem mix_empty_eval : mixAudioBuffers [] (1/24000) = [(0 : ℝ)] := by
  have hlen : bufLen (1/24000) = 1 := by
    unfold bufLen
    norm_num
  have hacc : accumulateClips [] 1 = [(0 : ℝ)] := by
    unfold accumulateClips accumulateWithCount
    rw [show List.range 1 = [0] from rfl]
    simp
  have hlim : applySoftLimiter [(0 : ℝ)] = [(0 : ℝ)] := by
    unfold applySoftLimiter
    simp only [List.map_cons, List.map_nil]
    rw [limitSample_id_of_le 0 (by norm_num)]
  unfold mixAudioBuffers
  rw [hlen, hacc, hlim]
  unfold compressOverlapRegions
  rw [show [(0 : ℝ)].length = 1 from rfl, show List.range 1 = [0] from rfl]
  simp only [List.map_cons, List.map_nil]
  rw [if_neg (by rw [show overlapCount (timelineChannels []) 0 = 0 from rfl]; norm_num)]
  rfl

/-- Witness for the amended C1 theorem: the empty mix over a one-sample
buffer, whose accumulated and final samples are zero. -/
theorem mix_bounded_of_accum_bounded_witness :
    (0 : ℝ) ∈ mixAudioBuffers [] (1/24000) ∧ |(0 : ℝ)| ≤ 1 := by
  constructor
  · rw [mix_empty_eval]
    simp
  · refine mix_bounded_of_accum_bounded [] (1/24000) ?_ 0 ?_
    · intro x hx
      unfold accumulateClips accumulateWithCount at hx
      rw [List.mem_map] at hx
      obtain ⟨j, _, rfl⟩ := hx
      norm_num
    · rw [mix_empty_eval]
      simp

end Dub
